import Mathlib

/-
Verification of the Geometric Painter rendering/composition engine
(src/geometric-painter.jsx) against its natural-language specification.

The source is a single React component; its algorithmic core is shallowly
embedded below.  JavaScript numbers are modelled as rationals (ℚ) wherever the
source performs only field arithmetic, floors, ceilings, comparisons and
absolute values; the two trigonometric scalars `cos2a`/`sin2a` that the
symmetry code computes once per call (`Math.cos(2*angleRad)`,
`Math.sin(2*angleRad)`) are threaded as explicit inputs of the
rational-arithmetic embedding, and a separate real-number embedding
(`reflectReal`) keeps the actual trigonometry for the reflection claims.
Pixel coordinates are integers (ℤ), pixel channels are naturals, and the
mutable canvas raster is a total function `ℤ → ℤ → RGBA` updated pointwise.
Host-canvas rasterisation primitives (stroking arcs, gradients,
putImageData compositing) are not pixel-specifiable; where a claim only
concerns control flow around them they are threaded as opaque function
parameters.
-/

namespace GeometricPainter

/-- One RGBA pixel of the canvas raster (channels 0..255 as stored in the
`Uint8ClampedArray` returned by `getImageData`). -/
structure RGBA where
  r : ℕ
  g : ℕ
  b : ℕ
  a : ℕ
deriving DecidableEq, Repr

/-- An RGB colour as produced by `hexToRgb` (source lines 485-490); the hex
string parsing itself is not modelled, colours enter as their parsed triples. -/
structure RGB where
  r : ℕ
  g : ℕ
  b : ℕ
deriving DecidableEq, Repr

/-- The canvas raster: a total pixel function.  In the source this is the
flat `imageData.data` array indexed by `(y * width + x) * 4`; the embedding
uses two-dimensional addressing directly. -/
abbrev CanvasFn := ℤ → ℤ → RGBA

/-! ## History manager (source lines 26-27, 102-138, 1007-1016) -/

/-- `maxUndoSteps` (source line 27). -/
def maxUndoSteps : ℕ := 20

/-- `saveToHistory` (source lines 102-115): push the snapshot, then drop the
oldest entry (`shift`) if the stack now exceeds `maxUndoSteps`.  Snapshots are
kept abstract (the source stores `canvas.toDataURL()` strings). -/
def saveToHistory {α : Type} (hist : List α) (snap : α) : List α :=
  let pushed := hist ++ [snap]
  if maxUndoSteps < pushed.length then pushed.drop 1 else pushed

/-- The stack effect of `undo` (source lines 117-138): a no-op when at most
one snapshot remains, otherwise `pop` the newest entry (the canvas is then
restored from the new top, which does not change the stack). -/
def undoStep {α : Type} (hist : List α) : List α :=
  if hist.length ≤ 1 then hist else hist.dropLast

/-- History state as the component sees it: the snapshot stack
(`undoHistoryRef.current`) together with the `canUndo` flag kept in React
state. -/
structure HistState (α : Type) where
  snaps : List α
  canUndo : Bool
deriving DecidableEq, Repr

/-- The two history-relevant user operations of claim C3: a committed drawing
operation (which snapshots the canvas) and an undo request. -/
inductive HOp (α : Type) where
  | commit (snap : α)
  | undo
deriving DecidableEq, Repr

/-- One step of the history state machine.  A commit runs `saveToHistory`
followed by `setCanUndo(length > 1)` (source line 114); an undo either
returns untouched (source line 118) or pops and then runs
`setCanUndo(length > 1)` (source line 137). -/
def applyOp {α : Type} (s : HistState α) : HOp α → HistState α
  | .commit snap =>
    let snaps := saveToHistory s.snaps snap
    ⟨snaps, decide (1 < snaps.length)⟩
  | .undo =>
    if s.snaps.length ≤ 1 then s
    else
      let snaps := s.snaps.dropLast
      ⟨snaps, decide (1 < snaps.length)⟩

/-- Initial state: `canUndo` starts `false` (source line 20) and the setup
effect captures the baseline snapshot via `saveToHistory` (source line 63). -/
def initState {α : Type} (baseline : α) : HistState α :=
  applyOp ⟨[], false⟩ (.commit baseline)

/-- Run a sequence of commits and undos. -/
def runOps {α : Type} (s : HistState α) (ops : List (HOp α)) : HistState α :=
  ops.foldl applyOp s

/-- The snapshot stack after `n` sequential commits (snapshot contents given
by the stream `f`) starting from the stack `hist`. -/
def commitsFrom {α : Type} (hist : List α) (f : ℕ → α) : ℕ → List α
  | 0 => hist
  | n + 1 => saveToHistory (commitsFrom hist f n) (f n)

/-! ## Bleed animator radius (source lines 187-195, 680-691) -/

/-- One animation tick of the stationary bleed loop (source lines 190-195):
`state.radius += 1.5`, then clamp to `state.maxRadius`. -/
def bleedTick (maxRadius radius : ℚ) : ℚ :=
  let grown := radius + 1.5
  if maxRadius < grown then maxRadius else grown

/-- The radius cap fixed at gesture start (source line 685). -/
def bleedMaxRadius (brushSize : ℚ) : ℚ := brushSize * 4

/-- Bleed radius after `n` ticks of a stationary hold: the gesture starts at
radius 0 (source line 684) and each frame applies `bleedTick`. -/
def bleedRadiusAfter (brushSize : ℚ) : ℕ → ℚ
  | 0 => 0
  | n + 1 => bleedTick (bleedMaxRadius brushSize) (bleedRadiusAfter brushSize n)

/-! ## Shape stamp engine: concentric rings (source lines 557-567) -/

/-- A stroked-circle primitive emitted by the `concentric` stamp: its radius,
the alpha passed to `hexToRgba` for its stroke style, and its line width. -/
structure RingPrim where
  radius : ℚ
  alpha : ℚ
  width : ℚ
deriving DecidableEq, Repr

/-- `numRings = Math.floor(brushSize / 8)` (source line 559). -/
def concentricNumRings (brushSize : ℚ) : ℕ := (⌊brushSize / 8⌋).toNat

/-- The ring primitives drawn by `drawShape` for shape `concentric`
(source lines 557-567): ring `i` (0-based) has radius
`(i+1) * (brushSize / numRings)` and stroke alpha
`opacity * (1 - i / numRings)`. -/
def concentricRings (brushSize opacity lineWeight : ℚ) : List RingPrim :=
  let numRings := concentricNumRings brushSize
  (List.range numRings).map fun (i : ℕ) =>
    { radius := ((i : ℚ) + 1) * (brushSize / (numRings : ℚ))
      alpha := opacity * (1 - (i : ℚ) / (numRings : ℚ))
      width := lineWeight }

/-! ## Brush stroke engine: distance-parameterised primitive lists
(source lines 833-997).  The segment runs from the branch-local last
position to the event point; `dx`, `dy` are its components and `dist` its
Euclidean length (the source computes `Math.sqrt(dx*dx+dy*dy)`; `dist` is
taken as an input here, with `dist ≥ 0` where needed). -/

/-- `dots` mode (source lines 875-893): one filled circle every 3 px, loop
`for (i = 0; i <= numDots; i++)`, so `numDots + 1` dots; each entry is
`(center x, center y, dot radius)`. -/
def dotsTrail (lastX lastY dx dy dist lineWeight : ℚ) : List (ℚ × ℚ × ℚ) :=
  let numDots := (⌊dist / 3⌋).toNat
  (List.range (numDots + 1)).map fun (i : ℕ) =>
    let t := (i : ℚ) / max (numDots : ℚ) 1
    (lastX + dx * t, lastY + dy * t, lineWeight)

/-- A radial-burst spoke (source lines 894-920): its base point, which of the
8 burst directions it takes (`burstAngle = (j/8) * 2π`, kept as the index
since the endpoint needs transcendental trig), and its length. -/
structure SpokePrim where
  px : ℚ
  py : ℚ
  angleIdx : ℕ
  len : ℚ
deriving DecidableEq, Repr

/-- `radials` mode (source lines 894-920): a burst every 20 px, loop
`for (i = 0; i <= numBursts; i++)`, 8 spokes of length `brushSize * 0.3`
per burst. -/
def radialBursts (lastX lastY dx dy dist brushSize : ℚ) : List SpokePrim :=
  let numBursts := (⌊dist / 20⌋).toNat
  (List.range (numBursts + 1)).flatMap fun (i : ℕ) =>
    let t := (i : ℚ) / max (numBursts : ℚ) 1
    let px := lastX + dx * t
    let py := lastY + dy * t
    (List.range 8).map fun (j : ℕ) => ⟨px, py, j, brushSize * 0.3⟩

/-- A crosshatch tick (source lines 921-961): its base point, whether it is
the perpendicular tick (`true`) or the 45°-offset tick (`false`), and its
length. -/
structure TickPrim where
  px : ℚ
  py : ℚ
  perp : Bool
  len : ℚ
deriving DecidableEq, Repr

/-- `crosshatch` mode (source lines 921-961): a sample every 15 px, loop
`for (i = 0; i <= numHatches; i++)`, two ticks of length `brushSize * 0.4`
per sample. -/
def crosshatchTicks (lastX lastY dx dy dist brushSize : ℚ) : List TickPrim :=
  let numHatches := (⌊dist / 15⌋).toNat
  (List.range (numHatches + 1)).flatMap fun (i : ℕ) =>
    let t := (i : ℚ) / max (numHatches : ℚ) 1
    let px := lastX + dx * t
    let py := lastY + dy * t
    let hatchLength := brushSize * 0.4
    [⟨px, py, true, hatchLength⟩, ⟨px, py, false, hatchLength⟩]

/-- `stipple` mode (source lines 962-981): `numDots = Math.floor(distance *
0.5)` jittered dots, loop `for (i = 0; i < numDots; i++)`.  The
`Math.random()` draws are supplied as the stream `rand` (three draws per
dot, in source order: x offset, y offset, size factor). -/
def stippleDots (lastX lastY dx dy dist brushSize lineWeight : ℚ)
    (rand : ℕ → ℚ) : List (ℚ × ℚ × ℚ) :=
  let numDots := (⌊dist * 0.5⌋).toNat
  (List.range numDots).map fun (i : ℕ) =>
    let t := (i : ℚ) / (numDots : ℚ)
    let cX := lastX + dx * t
    let cY := lastY + dy * t
    let offX := (rand (3 * i : ℕ) - 0.5) * brushSize
    let offY := (rand (3 * i + 1 : ℕ) - 0.5) * brushSize
    (cX + offX, cY + offY, lineWeight * 0.5 * (0.5 + rand (3 * i + 2 : ℕ) * 0.5))

/-! ## Symmetry transform (source lines 140-171) -/

/-- The reflection arithmetic of `applySymmetry` (source lines 152-167) with
the two trigonometric scalars `cos2a = Math.cos(2*angleRad)` and
`sin2a = Math.sin(2*angleRad)` taken as inputs: translate the point relative
to the canvas center, apply the reflection matrix, translate back. -/
def reflectC (cos2a sin2a centerX centerY px py : ℚ) : ℚ × ℚ :=
  let relX := px - centerX
  let relY := py - centerY
  let mirrorX := relX * cos2a + relY * sin2a
  let mirrorY := relX * sin2a - relY * cos2a
  (mirrorX + centerX, mirrorY + centerY)

/-- The full reflection of `applySymmetry` (source lines 152-167) over the
reals, including the angle conversion `angleRad = mirrorAngle * π / 180` and
the trigonometry. -/
noncomputable def reflectReal (mirrorAngle centerX centerY px py : ℝ) : ℝ × ℝ :=
  let angleRad := mirrorAngle * Real.pi / 180
  let cos2a := Real.cos (2 * angleRad)
  let sin2a := Real.sin (2 * angleRad)
  let relX := px - centerX
  let relY := py - centerY
  (relX * cos2a + relY * sin2a + centerX, relX * sin2a - relY * cos2a + centerY)

/-- `symmetryMode` (source line 18). -/
inductive SymMode where
  | none
  | mirror
deriving DecidableEq, Repr

/-- The branch points `applySymmetry` feeds to its callback, in call order
(source lines 145-170): the original point, then (in mirror mode) its
reflection. -/
def symPoints (symMode : SymMode) (cos2a sin2a centerX centerY x y : ℚ) :
    List (ℚ × ℚ) :=
  match symMode with
  | .none => [(x, y)]
  | .mirror => [(x, y), reflectC cos2a sin2a centerX centerY x y]

/-- The per-branch previous position computed inside the `draw` handler's
brush callback (source lines 785-816): in mirror mode the branch point
`(sx, sy)` is classified as the mirrored branch exactly when it differs from
the event point `(x, y)` by more than 1 in either center-relative coordinate,
and only then is the shared last position reflected. -/
def branchLastPos (symMode : SymMode) (cos2a sin2a centerX centerY : ℚ)
    (x y sx sy lastX lastY : ℚ) : ℚ × ℚ :=
  match symMode with
  | .none => (lastX, lastY)
  | .mirror =>
    let relX := sx - centerX
    let relY := sy - centerY
    let origRelX := x - centerX
    let origRelY := y - centerY
    let isMirror := 1 < |relX - origRelX| ∨ 1 < |relY - origRelY|
    if isMirror then reflectC cos2a sin2a centerX centerY lastX lastY
    else (lastX, lastY)

/-- The brush-path body of the `draw` handler inside `applySymmetry`
(source lines 780-827), with the mutable `lastPosRef` threaded explicitly:
for each branch point the handler reads the shared last position (`orig`),
computes the branch-local last position, temporarily overwrites the ref with
it, calls `drawBrushStroke` (recorded as the emitted segment from the
branch-local last position to the branch point), and restores the ref to
`orig`.  Returns the emitted segments and the ref value after all branches. -/
def symBranchPass (symMode : SymMode) (cos2a sin2a centerX centerY : ℚ)
    (lastX lastY x y : ℚ) : List ((ℚ × ℚ) × (ℚ × ℚ)) × (ℚ × ℚ) :=
  (symPoints symMode cos2a sin2a centerX centerY x y).foldl
    (fun acc pt =>
      let orig := acc.2
      let lastS := branchLastPos symMode cos2a sin2a centerX centerY
        x y pt.1 pt.2 orig.1 orig.2
      (acc.1 ++ [(lastS, pt)], orig))
    ([], (lastX, lastY))

/-- Result of one pointer-move event on the brush path. -/
structure DrawOut where
  segments : List ((ℚ × ℚ) × (ℚ × ℚ))
  lastPos : ℚ × ℚ
deriving DecidableEq, Repr

/-- One pointer-move event on the brush-stroke path of `draw` (source lines
780-830): run the symmetry branches, then unconditionally set the shared
last position to the event point (source line 829). -/
def drawStep (symMode : SymMode) (cos2a sin2a centerX centerY : ℚ)
    (lastX lastY x y : ℚ) : DrawOut :=
  let pass := symBranchPass symMode cos2a sin2a centerX centerY lastX lastY x y
  { segments := pass.1, lastPos := (x, y) }

/-! ## Blend/smudge engine (source lines 353-400) -/

/-- The control flow of `drawBlend` (source lines 353-400).  The source
compares `Math.sqrt(dx*dx + dy*dy) < 1`; since both sides are nonnegative
this is equivalent to `dx^2 + dy^2 < 1`, which is how the sub-pixel guard is
written here.  The actual compositing (the `getImageData`/`putImageData`
smear and the radial-gradient seam softener) is host-canvas rasterisation and
is threaded as the opaque `smudge` parameter, invoked with the clipped sample
rectangle and the motion vector. -/
def drawBlend (w h : ℤ)
    (smudge : ℤ → ℤ → ℤ → ℤ → ℚ → ℚ → CanvasFn → CanvasFn)
    (brushSize : ℚ) (x y lastX lastY : ℚ) (C : CanvasFn) : CanvasFn :=
  let blendRadius := brushSize * 0.5
  let dx := x - lastX
  let dy := y - lastY
  if dx ^ 2 + dy ^ 2 < 1 then C
  else
    let sourceX := max 0 ⌊lastX - blendRadius⌋
    let sourceY := max 0 ⌊lastY - blendRadius⌋
    let sourceWidth := min (w - sourceX) ⌈blendRadius * 2⌉
    let sourceHeight := min (h - sourceY) ⌈blendRadius * 2⌉
    if sourceWidth ≤ 0 ∨ sourceHeight ≤ 0 then C
    else smudge sourceX sourceY sourceWidth sourceHeight dx dy C

/-! ## Flood fill engine (source lines 402-483) -/

/-- In-bounds test for a pixel coordinate: the negation of the loop's
`x < 0 || x >= width || y < 0 || y >= height` skip (source line 440). -/
def inB (w h x y : ℤ) : Prop := 0 ≤ x ∧ x < w ∧ 0 ≤ y ∧ y < h

instance (w h x y : ℤ) : Decidable (inB w h x y) := by
  unfold inB; infer_instance

/-- All in-bounds pixel coordinates, as a finite set (used for the
termination measure of the fill loop, mirroring the `visited` byte array of
size `width * height`, source line 434). -/
def gridF (w h : ℤ) : Finset (ℤ × ℤ) :=
  Finset.Icc 0 (w - 1) ×ˢ Finset.Icc 0 (h - 1)

/-- Pointwise pixel write (the source writes the four channels of
`pixels[pixelPos..pixelPos+3]`, source lines 456-471). -/
def updPix (pix : CanvasFn) (x y : ℤ) (v : RGBA) : CanvasFn :=
  fun a b => if a = x ∧ b = y then v else pix a b

/-- The `while (pixelsToCheck.length > 0)` loop of `floodFill` (source lines
436-480).  The stack is a list of coordinate pairs (the source flattens the
pairs into one array and pushes `x+1,y`, `x-1,y`, `x,y+1`, `x,y-1`, popping
`y` then `x`, so the last-pushed pair `(x, y-1)` is processed first — hence
the cons order below).  Each popped pixel is skipped if out of bounds or
already visited; otherwise it is marked visited, and if it still matches the
seed colour `c₀` it is overwritten with `fillAt x y` and its four neighbours
are pushed. -/
def ffLoop (w h : ℤ) (c₀ : RGBA) (fillAt : ℤ → ℤ → RGBA) :
    List (ℤ × ℤ) → Finset (ℤ × ℤ) → CanvasFn → CanvasFn
  | [], _, pix => pix
  | (x, y) :: rest, visited, pix =>
    if h1 : ¬ inB w h x y then ffLoop w h c₀ fillAt rest visited pix
    else if h2 : (x, y) ∈ visited then ffLoop w h c₀ fillAt rest visited pix
    else if pix x y = c₀ then
      ffLoop w h c₀ fillAt
        ((x, y - 1) :: (x, y + 1) :: (x - 1, y) :: (x + 1, y) :: rest)
        (insert (x, y) visited) (updPix pix x y (fillAt x y))
    else ffLoop w h c₀ fillAt rest (insert (x, y) visited) pix
termination_by stack visited _ => 9 * (gridF w h \ visited).card + stack.length
decreasing_by
  · simp only [List.length_cons]; omega
  · simp only [List.length_cons]; omega
  · have hg : (x, y) ∈ gridF w h := by
      rw [not_not] at h1
      simp only [gridF, Finset.mem_product, Finset.mem_Icc]
      obtain ⟨a1, a2, a3, a4⟩ := h1
      omega
    have heq : gridF w h \ insert (x, y) visited
        = (gridF w h \ visited).erase (x, y) := by
      ext q
      simp only [Finset.mem_sdiff, Finset.mem_erase, Finset.mem_insert]
      tauto
    have hlt : (gridF w h \ insert (x, y) visited).card
        < (gridF w h \ visited).card := by
      rw [heq]
      exact Finset.card_erase_lt_of_mem (Finset.mem_sdiff.mpr ⟨hg, h2⟩)
    simp only [List.length_cons]
    omega
  · have hle : (gridF w h \ insert (x, y) visited).card
        ≤ (gridF w h \ visited).card := by
      apply Finset.card_le_card
      exact Finset.sdiff_subset_sdiff (Finset.Subset.refl _)
        (Finset.subset_insert _ _)
    have hg : (x, y) ∈ gridF w h := by
      rw [not_not] at h1
      simp only [gridF, Finset.mem_product, Finset.mem_Icc]
      obtain ⟨a1, a2, a3, a4⟩ := h1
      omega
    have heq : gridF w h \ insert (x, y) visited
        = (gridF w h \ visited).erase (x, y) := by
      ext q
      simp only [Finset.mem_sdiff, Finset.mem_erase, Finset.mem_insert]
      tauto
    have hlt : (gridF w h \ insert (x, y) visited).card
        < (gridF w h \ visited).card := by
      rw [heq]
      exact Finset.card_erase_lt_of_mem (Finset.mem_sdiff.mpr ⟨hg, h2⟩)
    simp only [List.length_cons]
    omega

/-- `fillPattern` (source line 17). -/
inductive FillPattern where
  | solid
  | dots
  | lines
  | crosshatch
  | stipple
deriving DecidableEq, Repr

/-- The flat fill value: `hexToRgb(fillColor)` channels with
`fillA = Math.floor(opacity * 255)` (source lines 414-418). -/
def solidFillRGBA (fillColor : RGB) (opacity : ℚ) : RGBA :=
  ⟨fillColor.r, fillColor.g, fillColor.b, (⌊opacity * 255⌋).toNat⟩

/-- `floodFill` (source lines 402-483): read the seed pixel at the
integer-rounded seed point, return unchanged if it already equals the flat
fill colour+alpha (source lines 421-423), otherwise run the region loop,
writing either the flat fill value or a sample of the 20×20 pattern canvas
at `(x mod 20, y mod 20)` (source lines 461-472; in-loop coordinates are
nonnegative, so JavaScript `%` agrees with `Int.emod`).  The pattern canvas
itself is rasterised by the host (`createPatternCanvas`) and enters as the
abstract pixel function `patternCanvas`. -/
def floodFill (w h : ℤ) (C : CanvasFn) (startX startY : ℚ) (fillColor : RGB)
    (opacity : ℚ) (pat : FillPattern) (patternCanvas : ℤ → ℤ → RGBA) :
    CanvasFn :=
  let sx : ℤ := ⌊startX⌋
  let sy : ℤ := ⌊startY⌋
  let startPix := C sx sy
  let fillPix := solidFillRGBA fillColor opacity
  if startPix = fillPix then C
  else
    let fillAt : ℤ → ℤ → RGBA :=
      match pat with
      | .solid => fun _ _ => fillPix
      | _ => fun x y => patternCanvas (x % 20) (y % 20)
    ffLoop w h startPix fillAt [(sx, sy)] ∅ C

/-- 4-neighbourhood: the four pixels the loop pushes (source lines
475-478). -/
def adj (p q : ℤ × ℤ) : Prop :=
  q = (p.1 + 1, p.2) ∨ q = (p.1 - 1, p.2) ∨ q = (p.1, p.2 + 1) ∨ q = (p.1, p.2 - 1)

/-- Declarative 4-connected reachability from the seed `s` through in-bounds
pixels of the original canvas `C` whose value is exactly `c₀`: the language
of "the maximal 4-connected region of pixels exactly matching the seed's
original RGBA". -/
inductive Reach (w h : ℤ) (C : CanvasFn) (c₀ : RGBA) (s : ℤ × ℤ) : ℤ × ℤ → Prop
  | seed : Reach w h C c₀ s s
  | step {p q : ℤ × ℤ} : Reach w h C c₀ s p → inB w h p.1 p.2 →
      C p.1 p.2 = c₀ → adj p q → Reach w h C c₀ s q

/-- The maximal 4-connected region of pixels whose RGBA quadruple exactly
equals the seed pixel's original value, containing the seed: reachable from
the seed through exactly-matching in-bounds pixels, in bounds, and itself
exactly matching. -/
def Region (w h : ℤ) (C : CanvasFn) (s : ℤ × ℤ) (p : ℤ × ℤ) : Prop :=
  Reach w h C (C s.1 s.2) s p ∧ inB w h p.1 p.2 ∧ C p.1 p.2 = C s.1 s.2

/-! ## Fill-mode click handler (source lines 669-677) -/

/-- The `fillMode` branch of `startDrawing` (source lines 669-677): flood
fill at every symmetry branch point in order (each fill reading the canvas
the previous one produced), then `saveToHistory()` — unconditionally. -/
def fillClick (symMode : SymMode) (cos2a sin2a centerX centerY : ℚ)
    (w h : ℤ) (C : CanvasFn) (x y : ℚ) (fillColor : RGB) (opacity : ℚ)
    (pat : FillPattern) (patternCanvas : ℤ → ℤ → RGBA)
    (hist : List CanvasFn) : CanvasFn × List CanvasFn :=
  let pts := symPoints symMode cos2a sin2a centerX centerY x y
  let Cfinal := pts.foldl
    (fun acc pt => floodFill w h acc pt.1 pt.2 fillColor opacity pat patternCanvas) C
  (Cfinal, saveToHistory hist Cfinal)

/-! ## Theorems -/

/-- C5: the symmetry reflection is an involution — reflecting the reflection
of any point through the same axis (any angle, any canvas center) returns
the original point exactly (the real-arithmetic model needs no
floating-point tolerance). -/
theorem reflectReal_involution (mirrorAngle centerX centerY px py : ℝ) :
    reflectReal mirrorAngle centerX centerY
      (reflectReal mirrorAngle centerX centerY px py).1
      (reflectReal mirrorAngle centerX centerY px py).2 = (px, py) := by
  have hpyth := Real.sin_sq_add_cos_sq (2 * (mirrorAngle * Real.pi / 180))
  simp only [reflectReal, Prod.mk.injEq]
  constructor
  · linear_combination (px - centerX) * hpyth
  · linear_combination (py - centerY) * hpyth

/-- The bleed radius never exceeds its cap (invariant of the tick loop). -/
theorem bleedRadiusAfter_le_cap (brushSize : ℚ) (hb : 0 ≤ brushSize) (n : ℕ) :
    bleedRadiusAfter brushSize n ≤ bleedMaxRadius brushSize := by
  induction n with
  | zero =>
    show (0 : ℚ) ≤ brushSize * 4
    linarith
  | succ n ih =>
    show bleedTick (bleedMaxRadius brushSize) (bleedRadiusAfter brushSize n)
      ≤ bleedMaxRadius brushSize
    by_cases hc : bleedMaxRadius brushSize < bleedRadiusAfter brushSize n + 1.5
    · simp only [bleedTick, if_pos hc]
      exact le_refl _
    · simp only [bleedTick, if_neg hc]
      exact not_lt.mp hc

/-- C6: while the pointer is held stationary with bleed active, the bleed
radius is non-decreasing from tick to tick, and never exceeds the cap
`maxRadius = brushSize * 4` fixed at gesture start. -/
theorem bleedRadius_mono_and_capped (brushSize : ℚ) (hb : 0 ≤ brushSize)
    (n : ℕ) :
    bleedRadiusAfter brushSize n ≤ bleedRadiusAfter brushSize (n + 1) ∧
    bleedRadiusAfter brushSize n ≤ bleedMaxRadius brushSize := by
  refine ⟨?_, bleedRadiusAfter_le_cap brushSize hb n⟩
  have hcap := bleedRadiusAfter_le_cap brushSize hb n
  show bleedRadiusAfter brushSize n
    ≤ bleedTick (bleedMaxRadius brushSize) (bleedRadiusAfter brushSize n)
  by_cases hc : bleedMaxRadius brushSize < bleedRadiusAfter brushSize n + 1.5
  · simp only [bleedTick, if_pos hc]
    exact hcap
  · simp only [bleedTick, if_neg hc]
    linarith

/-- Numeric fact used to discharge witness hypotheses. -/
theorem zero_le_forty_q : (0 : ℚ) ≤ 40 := by norm_num

/-- Witness for C6 at `brushSize = 40`, `n = 3`. -/
theorem bleedRadius_mono_and_capped_witness :
    (0 : ℚ) ≤ 40 ∧
    (bleedRadiusAfter 40 3 ≤ bleedRadiusAfter 40 4 ∧
      bleedRadiusAfter 40 3 ≤ bleedMaxRadius 40) :=
  ⟨zero_le_forty_q, bleedRadius_mono_and_capped 40 zero_le_forty_q 3⟩

/-- `concentricNumRings` is positive once `brushSize ≥ 8`. -/
theorem concentricNumRings_pos {brushSize : ℚ} (hbs : 8 ≤ brushSize) :
    0 < concentricNumRings brushSize := by
  have h1 : (1 : ℤ) ≤ ⌊brushSize / 8⌋ := by
    rw [Int.le_floor]
    push_cast
    linarith
  unfold concentricNumRings
  omega

/-- C7: the `concentric` stamp draws exactly `⌊brushSize/8⌋` rings; ring `i`
sits at the evenly spaced radius `(i+1) * (brushSize/numRings)` (so the
outermost reaches exactly `brushSize`) with stroke alpha
`opacity * (1 - i/numRings)`, strictly decreasing from the innermost ring to
the outermost. -/
theorem concentricRings_spec (brushSize opacity lineWeight : ℚ)
    (hbs : 8 ≤ brushSize) (hop : 0 < opacity) :
    (concentricRings brushSize opacity lineWeight).length
      = concentricNumRings brushSize ∧
    (∀ i : ℕ, i < concentricNumRings brushSize →
      (concentricRings brushSize opacity lineWeight)[i]? =
        some ⟨((i : ℚ) + 1) * (brushSize / (concentricNumRings brushSize : ℚ)),
              opacity * (1 - (i : ℚ) / (concentricNumRings brushSize : ℚ)),
              lineWeight⟩) ∧
    ((concentricNumRings brushSize : ℚ))
        * (brushSize / (concentricNumRings brushSize : ℚ)) = brushSize ∧
    (∀ i j : ℕ, i < j → j < concentricNumRings brushSize →
      opacity * (1 - (j : ℚ) / (concentricNumRings brushSize : ℚ)) <
      opacity * (1 - (i : ℚ) / (concentricNumRings brushSize : ℚ))) := by
  have hn : 0 < concentricNumRings brushSize := concentricNumRings_pos hbs
  have hnq : (0 : ℚ) < (concentricNumRings brushSize : ℚ) := by
    exact_mod_cast hn
  refine ⟨?_, ?_, ?_, ?_⟩
  · simp [concentricRings]
  · intro i hi
    simp [concentricRings, List.getElem?_map, List.getElem?_range, hi]
  · field_simp
  · intro i j hij hj
    have hcast : (i : ℚ) < (j : ℚ) := by exact_mod_cast hij
    have hdiv : (i : ℚ) / (concentricNumRings brushSize : ℚ)
        < (j : ℚ) / (concentricNumRings brushSize : ℚ) := by
      gcongr
    exact mul_lt_mul_of_pos_left (by linarith) hop

/-- Numeric fact used to discharge witness hypotheses. -/
theorem eight_le_forty_q : (8 : ℚ) ≤ 40 := by norm_num

/-- Numeric fact used to discharge witness hypotheses. -/
theorem zero_lt_seven_tenths_q : (0 : ℚ) < 7 / 10 := by norm_num

/-- Witness for C7 at `brushSize = 40`, `opacity = 7/10`: five rings of
strictly decreasing alpha. -/
theorem concentricRings_spec_witness :
    ((8 : ℚ) ≤ 40 ∧ (0 : ℚ) < 7 / 10) ∧
    ((concentricRings 40 (7 / 10) 1).length = concentricNumRings 40 ∧
      (∀ i : ℕ, i < concentricNumRings 40 →
        (concentricRings 40 (7 / 10) 1)[i]? =
          some ⟨((i : ℚ) + 1) * (40 / (concentricNumRings 40 : ℚ)),
                (7 / 10) * (1 - (i : ℚ) / (concentricNumRings 40 : ℚ)), 1⟩) ∧
      ((concentricNumRings 40 : ℚ)) * (40 / (concentricNumRings 40 : ℚ)) = 40 ∧
      (∀ i j : ℕ, i < j → j < concentricNumRings 40 →
        (7 / 10) * (1 - (j : ℚ) / (concentricNumRings 40 : ℚ)) <
        (7 / 10) * (1 - (i : ℚ) / (concentricNumRings 40 : ℚ)))) :=
  ⟨⟨eight_le_forty_q, zero_lt_seven_tenths_q⟩,
    concentricRings_spec 40 (7 / 10) 1 eight_le_forty_q zero_lt_seven_tenths_q⟩

/-- Primitive count of the `dots` trail. -/
theorem dotsTrail_length (lastX lastY dx dy dist lineWeight : ℚ) :
    (dotsTrail lastX lastY dx dy dist lineWeight).length
      = (⌊dist / 3⌋).toNat + 1 := by
  simp [dotsTrail]

/-- Primitive count of the `radials` bursts: 8 spokes per sample. -/
theorem radialBursts_length (lastX lastY dx dy dist brushSize : ℚ) :
    (radialBursts lastX lastY dx dy dist brushSize).length
      = 8 * ((⌊dist / 20⌋).toNat + 1) := by
  simp [radialBursts, List.length_flatMap, Function.comp_def, mul_comm]

/-- Primitive count of the `crosshatch` ticks: 2 ticks per sample. -/
theorem crosshatchTicks_length (lastX lastY dx dy dist brushSize : ℚ) :
    (crosshatchTicks lastX lastY dx dy dist brushSize).length
      = 2 * ((⌊dist / 15⌋).toNat + 1) := by
  simp [crosshatchTicks, List.length_flatMap, Function.comp_def, mul_comm]

/-- Primitive count of the `stipple` dots. -/
theorem stippleDots_length (lastX lastY dx dy dist brushSize lineWeight : ℚ)
    (rand : ℕ → ℚ) :
    (stippleDots lastX lastY dx dy dist brushSize lineWeight rand).length
      = (⌊dist * 0.5⌋).toNat := by
  simp [stippleDots]

/-- Doubling the argument at least doubles a (truncated) floor. -/
theorem two_mul_floor_toNat_le (q : ℚ) :
    2 * (⌊q⌋).toNat ≤ (⌊2 * q⌋).toNat := by
  have h1 : (2 : ℤ) * ⌊q⌋ ≤ ⌊2 * q⌋ := by
    rw [Int.le_floor]
    push_cast
    linarith [Int.floor_le q]
  omega

/-- C8 counterexample: in `dots` mode a segment of distance 3 emits 2 dots
but a segment of distance 6 emits only 3, not at least 4 — doubling the
distance does not double the primitive count. -/
theorem dots_double_distance_not_doubled :
    (dotsTrail 0 0 3 0 3 1).length = 2 ∧
    (dotsTrail 0 0 6 0 6 1).length = 3 ∧
    ¬ 2 * (dotsTrail 0 0 3 0 3 1).length ≤ (dotsTrail 0 0 6 0 6 1).length := by
  rw [dotsTrail_length, dotsTrail_length]
  norm_num
  decide

/-- C8 amended: for the distance-parameterised modes, doubling the segment
distance at least doubles the interior sample count `⌊dist/spacing⌋`; the
emitted primitive count (which is `samples + 1` sample groups because the
loops run `i = 0 .. numSamples` inclusive) therefore at least doubles up to
one trailing sample group — exactly one extra dot for `dots`, 8 spokes for
`radials`, 2 ticks for `crosshatch`, and with no loss at all for `stipple`
(whose loop is exclusive). -/
theorem brush_counts_scale_with_distance
    (lastX lastY dx dy dist brushSize lineWeight : ℚ) (rand : ℕ → ℚ) :
    2 * (dotsTrail lastX lastY dx dy dist lineWeight).length
      ≤ (dotsTrail lastX lastY dx dy (2 * dist) lineWeight).length + 1 ∧
    2 * (radialBursts lastX lastY dx dy dist brushSize).length
      ≤ (radialBursts lastX lastY dx dy (2 * dist) brushSize).length + 8 ∧
    2 * (crosshatchTicks lastX lastY dx dy dist brushSize).length
      ≤ (crosshatchTicks lastX lastY dx dy (2 * dist) brushSize).length + 2 ∧
    2 * (stippleDots lastX lastY dx dy dist brushSize lineWeight rand).length
      ≤ (stippleDots lastX lastY dx dy (2 * dist) brushSize lineWeight rand).length := by
  rw [dotsTrail_length, dotsTrail_length, radialBursts_length, radialBursts_length,
    crosshatchTicks_length, crosshatchTicks_length, stippleDots_length,
    stippleDots_length]
  have h3 := two_mul_floor_toNat_le (dist / 3)
  rw [← mul_div_assoc] at h3
  have h20 := two_mul_floor_toNat_le (dist / 20)
  rw [← mul_div_assoc] at h20
  have h15 := two_mul_floor_toNat_le (dist / 15)
  rw [← mul_div_assoc] at h15
  have h05 := two_mul_floor_toNat_le (dist * 0.5)
  rw [show 2 * (dist * 0.5) = 2 * dist * 0.5 by ring] at h05
  refine ⟨by omega, by omega, by omega, h05⟩

/-- C9: the blend/smudge operation is a silent no-op whenever the motion
between the previous and current point is sub-pixel (`distance < 1`, i.e.
`dx² + dy² < 1`), and likewise whenever the clipped sample rectangle has
zero or negative width or height — no pixel changes and no error is raised
(the model is a total function). -/
theorem drawBlend_noop_on_degenerate (w h : ℤ)
    (smudge : ℤ → ℤ → ℤ → ℤ → ℚ → ℚ → CanvasFn → CanvasFn)
    (brushSize x y lastX lastY : ℚ) (C : CanvasFn)
    (hdeg : (x - lastX) ^ 2 + (y - lastY) ^ 2 < 1 ∨
      min (w - max 0 ⌊lastX - brushSize * 0.5⌋) ⌈brushSize * 0.5 * 2⌉ ≤ 0 ∨
      min (h - max 0 ⌊lastY - brushSize * 0.5⌋) ⌈brushSize * 0.5 * 2⌉ ≤ 0) :
    drawBlend w h smudge brushSize x y lastX lastY C = C := by
  unfold drawBlend
  by_cases h1 : (x - lastX) ^ 2 + (y - lastY) ^ 2 < 1
  · simp only [if_pos h1]
  · simp only [if_neg h1]
    rcases hdeg with hd | hd | hd
    · exact absurd hd h1
    · rw [if_pos (Or.inl hd)]
    · rw [if_pos (Or.inr hd)]

/-- Sub-pixel fact for the C9 witness: a motion of 1/2 px in x only. -/
theorem subpixel_half_q :
    ((201 : ℚ) / 2 - 100) ^ 2 + ((100 : ℚ) - 100) ^ 2 < 1 := by norm_num

/-- Witness for C9: canvas 800×600, brush 40, previous point (100,100),
current point (100.5,100): the blend leaves the canvas untouched even with a
smudge operation that would repaint everything. -/
theorem drawBlend_noop_on_degenerate_witness :
    (((201 : ℚ) / 2 - 100) ^ 2 + ((100 : ℚ) - 100) ^ 2 < 1) ∧
    drawBlend 800 600 (fun _ _ _ _ _ _ _ => fun _ _ => ⟨1, 2, 3, 4⟩) 40
        (201 / 2) 100 100 100 (fun _ _ => ⟨0, 0, 0, 255⟩)
      = (fun _ _ => ⟨0, 0, 0, 255⟩) :=
  ⟨subpixel_half_q,
    drawBlend_noop_on_degenerate 800 600 (fun _ _ _ _ _ _ _ => fun _ _ => ⟨1, 2, 3, 4⟩)
      40 (201 / 2) 100 100 100 (fun _ _ => ⟨0, 0, 0, 255⟩)
      (Or.inl subpixel_half_q)⟩

/-- C10: after any pointer-move event on the brush-stroke path — any brush
mode (the segment list is mode-independent), any symmetry mode — the shared
last-position ref ends up equal to the current event point; the temporary
per-branch overwrite inside the mirror branch is restored before the
handler's final update (the ref reads `(lastX, lastY)` again after the
symmetry pass), so every branch computes its predecessor from the original
shared last position. -/
theorem drawStep_restores_and_updates_lastPos
    (symMode : SymMode) (cos2a sin2a centerX centerY lastX lastY x y : ℚ) :
    (symBranchPass symMode cos2a sin2a centerX centerY lastX lastY x y).2
        = (lastX, lastY) ∧
    (drawStep symMode cos2a sin2a centerX centerY lastX lastY x y).lastPos
        = (x, y) ∧
    (symBranchPass symMode cos2a sin2a centerX centerY lastX lastY x y).1 =
      (symPoints symMode cos2a sin2a centerX centerY x y).map
        (fun pt => (branchLastPos symMode cos2a sin2a centerX centerY
          x y pt.1 pt.2 lastX lastY, pt)) := by
  cases symMode <;>
    simp [symBranchPass, drawStep, symPoints, List.foldl]

/-- Witness for C10 in mirror mode at concrete inputs. -/
theorem drawStep_restores_and_updates_lastPos_witness :
    (symBranchPass .mirror (-1) 0 400 300 210 310 200 300).2 = (210, 310) ∧
    (drawStep .mirror (-1) 0 400 300 210 310 200 300).lastPos = (200, 300) ∧
    (symBranchPass .mirror (-1) 0 400 300 210 310 200 300).1 =
      (symPoints .mirror (-1) 0 400 300 200 300).map
        (fun pt => (branchLastPos .mirror (-1) 0 400 300
          200 300 pt.1 pt.2 210 310, pt)) :=
  drawStep_restores_and_updates_lastPos .mirror (-1) 0 400 300 210 310 200 300

/-- Length of `saveToHistory` while the stack respects the cap. -/
theorem saveToHistory_length {α : Type} (hist : List α) (snap : α)
    (hle : hist.length ≤ maxUndoSteps) :
    (saveToHistory hist snap).length = min (hist.length + 1) maxUndoSteps := by
  unfold saveToHistory
  by_cases hc : maxUndoSteps < (hist ++ [snap]).length
  · simp only [if_pos hc]
    simp only [List.length_drop, List.length_append, List.length_singleton]
    simp only [List.length_append, List.length_singleton, maxUndoSteps] at hc hle ⊢
    omega
  · simp only [if_neg hc]
    simp only [List.length_append, List.length_singleton, maxUndoSteps] at hc hle ⊢
    omega

/-- The stack holds `min (n+1) 20` snapshots after `n` commits on top of the
baseline. -/
theorem commitsFrom_length {α : Type} (b : α) (f : ℕ → α) (n : ℕ) :
    (commitsFrom [b] f n).length = min (n + 1) maxUndoSteps := by
  induction n with
  | zero => simp [commitsFrom, maxUndoSteps]
  | succ n ih =>
    rw [commitsFrom, saveToHistory_length _ _ (by rw [ih]; omega), ih]
    simp only [maxUndoSteps]
    omega

/-- Stack length after one undo. -/
theorem undoStep_length {α : Type} (hist : List α) (h1 : 1 ≤ hist.length) :
    (undoStep hist).length = max (hist.length - 1) 1 := by
  unfold undoStep
  by_cases hc : hist.length ≤ 1
  · simp only [if_pos hc]
    omega
  · simp only [if_neg hc, List.length_dropLast]
    omega

/-- Stack length after `k` undos. -/
theorem undoStep_iterate_length {α : Type} (hist : List α)
    (h1 : 1 ≤ hist.length) (k : ℕ) :
    (undoStep^[k] hist).length = max (hist.length - k) 1 := by
  induction k generalizing hist with
  | zero => simp; omega
  | succ k ih =>
    rw [Function.iterate_succ_apply]
    have h1s : 1 ≤ (undoStep hist).length := by
      rw [undoStep_length hist h1]; omega
    rw [ih (undoStep hist) h1s, undoStep_length hist h1]
    omega

/-- One history operation preserves the stack bounds and the `canUndo`
synchronisation. -/
theorem applyOp_inv {α : Type} (s : HistState α) (op : HOp α)
    (h1 : 1 ≤ s.snaps.length) (h2 : s.snaps.length ≤ maxUndoSteps)
    (h3 : s.canUndo = true ↔ 1 < s.snaps.length) :
    1 ≤ (applyOp s op).snaps.length ∧
    (applyOp s op).snaps.length ≤ maxUndoSteps ∧
    ((applyOp s op).canUndo = true ↔ 1 < (applyOp s op).snaps.length) := by
  cases op with
  | commit snap =>
    simp only [applyOp]
    rw [saveToHistory_length _ _ h2]
    refine ⟨by omega, min_le_right _ _, ?_⟩
    simp [decide_eq_true_iff, saveToHistory_length _ _ h2]
  | undo =>
    simp only [applyOp]
    by_cases hc : s.snaps.length ≤ 1
    · simp only [if_pos hc]
      exact ⟨h1, h2, h3⟩
    · simp only [if_neg hc, List.length_dropLast]
      refine ⟨by omega, by omega, ?_⟩
      simp [decide_eq_true_iff]

/-- The invariant of claim C3 holds in every state reachable from the
baseline by commits and undos. -/
theorem runOps_inv {α : Type} (b : α) (ops : List (HOp α)) :
    1 ≤ (runOps (initState b) ops).snaps.length ∧
    (runOps (initState b) ops).snaps.length ≤ maxUndoSteps ∧
    ((runOps (initState b) ops).canUndo = true ↔
      1 < (runOps (initState b) ops).snaps.length) := by
  suffices hgen : ∀ s : HistState α, 1 ≤ s.snaps.length →
      s.snaps.length ≤ maxUndoSteps → (s.canUndo = true ↔ 1 < s.snaps.length) →
      1 ≤ (runOps s ops).snaps.length ∧
      (runOps s ops).snaps.length ≤ maxUndoSteps ∧
      ((runOps s ops).canUndo = true ↔ 1 < (runOps s ops).snaps.length) by
    apply hgen
    · simp [initState, applyOp, saveToHistory, maxUndoSteps]
    · simp [initState, applyOp, saveToHistory, maxUndoSteps]
    · simp [initState, applyOp, saveToHistory, maxUndoSteps]
  induction ops with
  | nil =>
    intro s hs1 hs2 hs3
    exact ⟨hs1, hs2, hs3⟩
  | cons op ops ih =>
    intro s hs1 hs2 hs3
    have hstep := applyOp_inv s op hs1 hs2 hs3
    have hrw : runOps s (op :: ops) = runOps (applyOp s op) ops := by
      simp [runOps]
    rw [hrw]
    exact ih (applyOp s op) hstep.1 hstep.2.1 hstep.2.2

/-- C3 counterexample: after a single commit on top of the baseline the very
first undo already succeeds (it changes the stack), whereas the claimed
formula `min(n,20) - 1` predicts zero successful undos for `n = 1`. -/
theorem one_commit_allows_one_undo :
    undoStep (commitsFrom [0] (fun _ => 1) 1) ≠ commitsFrom [0] (fun _ => 1) 1 ∧
    (undoStep (commitsFrom [0] (fun _ => 1) 1)).length = 1 ∧
    (commitsFrom [0] (fun _ => 1) 1).length = 2 ∧
    min 1 maxUndoSteps - 1 = 0 := by
  refine ⟨by decide, by decide, by decide, by decide⟩

/-- C3 amended: the stack never exceeds 20 snapshots and `canUndo` is exactly
`snapshotCount > 1` along every sequence of commits and undos; after `n`
sequential commits from the baseline the stack holds `min(n+1, 20)` snapshots
and undo succeeds exactly `min(n+1, 20) - 1` times before becoming a no-op
(the `k`-th undo leaves `max(min(n+1,20) - k, 1)` snapshots); in particular
after 25 commits undo succeeds exactly 19 times. -/
theorem history_bounds_and_undo_counts {α : Type} (b : α) :
    (∀ ops : List (HOp α),
      (runOps (initState b) ops).snaps.length ≤ maxUndoSteps ∧
      ((runOps (initState b) ops).canUndo = true ↔
        1 < (runOps (initState b) ops).snaps.length)) ∧
    (∀ (f : ℕ → α) (n k : ℕ),
      (undoStep^[k] (commitsFrom [b] f n)).length
        = max (min (n + 1) maxUndoSteps - k) 1) ∧
    (∀ f : ℕ → α,
      (undoStep^[19] (commitsFrom [b] f 25)).length = 1 ∧
      ∀ k : ℕ, k < 19 → 1 < (undoStep^[k] (commitsFrom [b] f 25)).length) := by
  refine ⟨?_, ?_, ?_⟩
  · intro ops
    exact ⟨(runOps_inv b ops).2.1, (runOps_inv b ops).2.2⟩
  · intro f n k
    have hlen := commitsFrom_length b f n
    have h1 : 1 ≤ (commitsFrom [b] f n).length := by
      rw [hlen]; simp [maxUndoSteps]
    rw [undoStep_iterate_length _ h1 k, hlen]
  · intro f
    have h1 : 1 ≤ (commitsFrom [b] f 25).length := by
      rw [commitsFrom_length]; simp [maxUndoSteps]
    constructor
    · rw [undoStep_iterate_length _ h1 19, commitsFrom_length]
      simp [maxUndoSteps]
    · intro k hk
      rw [undoStep_iterate_length _ h1 k, commitsFrom_length]
      simp only [maxUndoSteps]
      omega

/-- Witness for C3's amended statement at `α = ℕ`, baseline 0. -/
theorem history_bounds_and_undo_counts_witness :
    (∀ ops : List (HOp ℕ),
      (runOps (initState 0) ops).snaps.length ≤ maxUndoSteps ∧
      ((runOps (initState 0) ops).canUndo = true ↔
        1 < (runOps (initState 0) ops).snaps.length)) ∧
    (∀ (f : ℕ → ℕ) (n k : ℕ),
      (undoStep^[k] (commitsFrom [0] f n)).length
        = max (min (n + 1) maxUndoSteps - k) 1) ∧
    (∀ f : ℕ → ℕ,
      (undoStep^[19] (commitsFrom [0] f 25)).length = 1 ∧
      ∀ k : ℕ, k < 19 → 1 < (undoStep^[k] (commitsFrom [0] f 25)).length) :=
  history_bounds_and_undo_counts 0

/-- At the vertical mirror axis setting `mirrorAngle = 90` the two
trigonometric scalars of `applySymmetry` are exactly `cos2a = -1` and
`sin2a = 0`; this justifies instantiating the rational embedding with
`(-1, 0)`. -/
theorem mirrorAngle90_trig :
    Real.cos (2 * ((90 : ℝ) * Real.pi / 180)) = -1 ∧
    Real.sin (2 * ((90 : ℝ) * Real.pi / 180)) = 0 := by
  have h : 2 * ((90 : ℝ) * Real.pi / 180) = Real.pi := by ring
  rw [h]
  exact ⟨Real.cos_pi, Real.sin_pi⟩

/-- C4 counterexample: vertical mirror axis (`cos2a = -1`, `sin2a = 0`,
i.e. `mirrorAngle = 90`), canvas center (400, 300), shared last position
(300, 100), current point (400, 100) — a point ON the mirror axis.  The
reflection of the current point coincides with it, so the `isMirror` test
fails for the mirrored branch and that branch draws from the UNREFLECTED
last position (300, 100), not from its reflection (500, 100): both emitted
segments are identical, the mirrored stroke is not the reflection of the
real stroke. -/
theorem mirror_branch_unreflected_near_axis :
    (symBranchPass .mirror (-1) 0 400 300 300 100 400 100).1 =
      [((300, 100), (400, 100)), ((300, 100), (400, 100))] ∧
    reflectC (-1) 0 400 300 300 100 = (500, 100) ∧
    ((300 : ℚ), (100 : ℚ)) ≠ ((500 : ℚ), (100 : ℚ)) := by
  refine ⟨?_, ?_, ?_⟩
  · norm_num [symBranchPass, symPoints, branchLastPos, reflectC, List.foldl]
  · norm_num [reflectC]
  · simp only [ne_eq, Prod.mk.injEq, not_and]
    intro hcon
    norm_num at hcon

/-- C4 amended: the mirrored drawing branch uses the reflection of the real
branch's last position whenever the mirrored current point differs from the
current point by more than 1 in at least one coordinate (equivalently, the
current point is not within the 1px detection band around the mirror axis);
inside that band the `isMirror` test misfires and the branch falls back to
the shared unreflected value (see the counterexample). -/
theorem mirror_branch_reflects_last_beyond_band
    (cos2a sin2a centerX centerY lastX lastY x y : ℚ)
    (hband : 1 < |(reflectC cos2a sin2a centerX centerY x y).1 - x| ∨
      1 < |(reflectC cos2a sin2a centerX centerY x y).2 - y|) :
    (symBranchPass .mirror cos2a sin2a centerX centerY lastX lastY x y).1 =
      [((lastX, lastY), (x, y)),
        (reflectC cos2a sin2a centerX centerY lastX lastY,
          reflectC cos2a sin2a centerX centerY x y)] := by
  simp only [symBranchPass, symPoints, List.foldl, branchLastPos]
  have hself : ¬ (1 < |x - centerX - (x - centerX)| ∨
      1 < |y - centerY - (y - centerY)|) := by
    simp
  rw [if_neg hself]
  have e1 : (reflectC cos2a sin2a centerX centerY x y).1 - centerX - (x - centerX)
      = (reflectC cos2a sin2a centerX centerY x y).1 - x := by ring
  have e2 : (reflectC cos2a sin2a centerX centerY x y).2 - centerY - (y - centerY)
      = (reflectC cos2a sin2a centerX centerY x y).2 - y := by ring
  rw [e1, e2, if_pos hband]
  simp

/-- Band fact for the C4 witness: at the vertical axis with center (400,300)
the point (200, 300) reflects to (600, 300), which is farther than 1px from
it. -/
theorem c4_band_fact :
    1 < |(reflectC (-1) 0 400 300 200 300).1 - 200| ∨
    1 < |(reflectC (-1) 0 400 300 200 300).2 - 300| := by
  left
  norm_num [reflectC]

/-- Witness for C4's amended statement: off the axis band, the mirrored
branch draws from the reflected last position. -/
theorem mirror_branch_reflects_last_beyond_band_witness :
    (1 < |(reflectC (-1) 0 400 300 200 300).1 - 200| ∨
      1 < |(reflectC (-1) 0 400 300 200 300).2 - 300|) ∧
    (symBranchPass .mirror (-1) 0 400 300 210 310 200 300).1 =
      [((210, 310), (200, 300)),
        (reflectC (-1) 0 400 300 210 310, reflectC (-1) 0 400 300 200 300)] :=
  ⟨c4_band_fact,
    mirror_branch_reflects_last_beyond_band (-1) 0 400 300 210 310 200 300
      c4_band_fact⟩

/-- `floodFill` returns the canvas untouched when the seed pixel already
equals the flat fill colour+alpha (the guard at source lines 421-423). -/
theorem floodFill_noop_of_match (w h : ℤ) (C : CanvasFn) (x y : ℚ)
    (fillColor : RGB) (opacity : ℚ) (pat : FillPattern)
    (patternCanvas : ℤ → ℤ → RGBA)
    (hmatch : C ⌊x⌋ ⌊y⌋ = solidFillRGBA fillColor opacity) :
    floodFill w h C x y fillColor opacity pat patternCanvas = C := by
  simp [floodFill, hmatch]

/-- The newest history entry after `saveToHistory` is the snapshot just
pushed. -/
theorem saveToHistory_getLast {α : Type} (hist : List α) (snap : α) :
    (saveToHistory hist snap).getLast? = some snap := by
  unfold saveToHistory
  by_cases hc : maxUndoSteps < (hist ++ [snap]).length
  · simp only [if_pos hc]
    cases hist with
    | nil => simp [maxUndoSteps] at hc
    | cons a t => simp
  · simp only [if_neg hc]
    simp

/-- The seed pixel of the C2 scenario already carries the target fill colour
and alpha. -/
theorem c2_match_fact :
    ((fun _ _ => (⟨107, 181, 199, 255⟩ : RGBA)) : CanvasFn) ⌊(400 : ℚ)⌋ ⌊(300 : ℚ)⌋
      = solidFillRGBA ⟨107, 181, 199⟩ 1 := by
  norm_num [solidFillRGBA]
  decide

/-- C2 counterexample: a fill click whose seed pixel already equals the
target fill colour+alpha leaves every pixel unchanged, yet a history entry
IS added — `startDrawing` calls `saveToHistory()` unconditionally after the
fill (source line 675), so the stack grows from 1 to 2 snapshots. -/
theorem fill_noop_still_snapshots :
    ((fun _ _ => (⟨107, 181, 199, 255⟩ : RGBA)) : CanvasFn) ⌊(400 : ℚ)⌋ ⌊(300 : ℚ)⌋
        = solidFillRGBA ⟨107, 181, 199⟩ 1 ∧
    (fillClick .none 0 0 400 300 800 600 (fun _ _ => ⟨107, 181, 199, 255⟩)
        400 300 ⟨107, 181, 199⟩ 1 .solid (fun _ _ => ⟨0, 0, 0, 0⟩)
        [fun _ _ => ⟨107, 181, 199, 255⟩]).1 = (fun _ _ => ⟨107, 181, 199, 255⟩) ∧
    (fillClick .none 0 0 400 300 800 600 (fun _ _ => ⟨107, 181, 199, 255⟩)
        400 300 ⟨107, 181, 199⟩ 1 .solid (fun _ _ => ⟨0, 0, 0, 0⟩)
        [fun _ _ => ⟨107, 181, 199, 255⟩]).2.length = 2 := by
  refine ⟨c2_match_fact, ?_, ?_⟩
  · simp only [fillClick, symPoints, List.foldl]
    exact floodFill_noop_of_match 800 600 _ 400 300 ⟨107, 181, 199⟩ 1 .solid _
      c2_match_fact
  · simp [fillClick, symPoints, saveToHistory, maxUndoSteps]

/-- C2 amended: with mirror symmetry off, a fill click whose seed pixel
already equals the target fill colour+alpha changes no pixel of the canvas
(the guard makes `floodFill` the identity), but it is NOT a complete no-op:
`saveToHistory` still runs, so the stack grows to `min(length+1, 20)`
snapshots and its newest entry is the (unchanged) canvas. -/
theorem fillClick_matching_seed_unchanged_but_snapshot
    (w h : ℤ) (C : CanvasFn) (cos2a sin2a centerX centerY x y : ℚ)
    (fillColor : RGB) (opacity : ℚ) (patternCanvas : ℤ → ℤ → RGBA)
    (hist : List CanvasFn) (hlen : hist.length ≤ maxUndoSteps)
    (hmatch : C ⌊x⌋ ⌊y⌋ = solidFillRGBA fillColor opacity) :
    (fillClick .none cos2a sin2a centerX centerY w h C x y fillColor opacity
        .solid patternCanvas hist).1 = C ∧
    (fillClick .none cos2a sin2a centerX centerY w h C x y fillColor opacity
        .solid patternCanvas hist).2.length = min (hist.length + 1) maxUndoSteps ∧
    (fillClick .none cos2a sin2a centerX centerY w h C x y fillColor opacity
        .solid patternCanvas hist).2.getLast? = some C := by
  have hfill : floodFill w h C x y fillColor opacity .solid patternCanvas = C :=
    floodFill_noop_of_match w h C x y fillColor opacity .solid patternCanvas hmatch
  have h1 : (fillClick .none cos2a sin2a centerX centerY w h C x y fillColor
      opacity .solid patternCanvas hist).1 = C := by
    simp only [fillClick, symPoints, List.foldl]
    exact hfill
  refine ⟨h1, ?_, ?_⟩
  · simp only [fillClick, symPoints, List.foldl, hfill]
    exact saveToHistory_length hist C hlen
  · simp only [fillClick, symPoints, List.foldl, hfill]
    exact saveToHistory_getLast hist C

/-- Stack-size fact for the C2 witness. -/
theorem c2_hist_len_fact :
    ([fun _ _ => (⟨107, 181, 199, 255⟩ : RGBA)] : List CanvasFn).length
      ≤ maxUndoSteps := by
  simp [maxUndoSteps]

/-- Witness for C2's amended statement at the concrete scenario of the
counterexample. -/
theorem fillClick_matching_seed_unchanged_but_snapshot_witness :
    (fillClick .none 0 0 400 300 800 600 (fun _ _ => ⟨107, 181, 199, 255⟩)
        400 300 ⟨107, 181, 199⟩ 1 .solid (fun _ _ => ⟨0, 0, 0, 0⟩)
        [fun _ _ => ⟨107, 181, 199, 255⟩]).1 = (fun _ _ => ⟨107, 181, 199, 255⟩) ∧
    (fillClick .none 0 0 400 300 800 600 (fun _ _ => ⟨107, 181, 199, 255⟩)
        400 300 ⟨107, 181, 199⟩ 1 .solid (fun _ _ => ⟨0, 0, 0, 0⟩)
        [fun _ _ => ⟨107, 181, 199, 255⟩]).2.length
      = min (([fun _ _ => (⟨107, 181, 199, 255⟩ : RGBA)] : List CanvasFn).length + 1)
          maxUndoSteps ∧
    (fillClick .none 0 0 400 300 800 600 (fun _ _ => ⟨107, 181, 199, 255⟩)
        400 300 ⟨107, 181, 199⟩ 1 .solid (fun _ _ => ⟨0, 0, 0, 0⟩)
        [fun _ _ => ⟨107, 181, 199, 255⟩]).2.getLast?
      = some (fun _ _ => ⟨107, 181, 199, 255⟩) :=
  fillClick_matching_seed_unchanged_but_snapshot 800 600
    (fun _ _ => ⟨107, 181, 199, 255⟩) 0 0 400 300 400 300 ⟨107, 181, 199⟩ 1
    (fun _ _ => ⟨0, 0, 0, 0⟩) [fun _ _ => ⟨107, 181, 199, 255⟩]
    c2_hist_len_fact c2_match_fact

/-- Invariant-based characterisation of the fill loop: starting from any
state whose stack, visited set and partially-filled raster satisfy the loop
invariants with respect to the original canvas `C0` and seed `s`, the loop
produces `fillAt` exactly on the reachable matching pixels and leaves all
other pixels at their original value. -/
theorem ffLoop_spec (w h : ℤ) (c₀ : RGBA) (fillAt : ℤ → ℤ → RGBA)
    (C0 : CanvasFn) (s : ℤ × ℤ) :
    ∀ (stack : List (ℤ × ℤ)) (V : Finset (ℤ × ℤ)) (pix : CanvasFn),
    (∀ p : ℤ × ℤ, p ∉ V → pix p.1 p.2 = C0 p.1 p.2) →
    (∀ p ∈ V, inB w h p.1 p.2) →
    (∀ p : ℤ × ℤ, p ∈ V → C0 p.1 p.2 = c₀ → pix p.1 p.2 = fillAt p.1 p.2) →
    (∀ p : ℤ × ℤ, p ∈ V → C0 p.1 p.2 ≠ c₀ → pix p.1 p.2 = C0 p.1 p.2) →
    (∀ p ∈ stack, Reach w h C0 c₀ s p) →
    (∀ p ∈ V, Reach w h C0 c₀ s p) →
    (∀ p q : ℤ × ℤ, p ∈ V → C0 p.1 p.2 = c₀ → adj p q → inB w h q.1 q.2 →
      q ∈ V ∨ q ∈ stack) →
    (inB w h s.1 s.2 → s ∈ V ∨ s ∈ stack) →
    (∀ a b : ℤ, Reach w h C0 c₀ s (a, b) → inB w h a b → C0 a b = c₀ →
        ffLoop w h c₀ fillAt stack V pix a b = fillAt a b) ∧
    (∀ a b : ℤ, ¬ (Reach w h C0 c₀ s (a, b) ∧ inB w h a b ∧ C0 a b = c₀) →
        ffLoop w h c₀ fillAt stack V pix a b = C0 a b) := by
  intro stack V pix
  induction stack, V, pix using ffLoop.induct w h c₀ fillAt with
  | case1 V pix =>
    intro inv1 inv2a inv2b inv2c inv3 inv4 inv5 inv6
    have key : ∀ p, Reach w h C0 c₀ s p → inB w h p.1 p.2 → p ∈ V := by
      intro p hp
      induction hp with
      | seed =>
        intro hin
        rcases inv6 hin with hv | hs
        · exact hv
        · exact absurd hs (List.not_mem_nil s)
      | step hp hinp hcp hadj ih =>
        intro hinq
        rcases inv5 _ _ (ih hinp) hcp hadj hinq with hv | hs
        · exact hv
        · exact absurd hs (List.not_mem_nil _)
    constructor
    · intro a b hreach hin hc
      rw [ffLoop]
      exact inv2b (a, b) (key (a, b) hreach hin) hc
    · intro a b hnot
      rw [ffLoop]
      by_cases hv : (a, b) ∈ V
      · by_cases hc : C0 a b = c₀
        · exact absurd ⟨inv4 (a, b) hv, inv2a (a, b) hv, hc⟩ hnot
        · exact inv2c (a, b) hv hc
      · exact inv1 (a, b) hv
  | case2 x y rest visited pix h1 ih =>
    intro inv1 inv2a inv2b inv2c inv3 inv4 inv5 inv6
    have hstep : ffLoop w h c₀ fillAt ((x, y) :: rest) visited pix
        = ffLoop w h c₀ fillAt rest visited pix := by
      rw [ffLoop]
      rw [dif_pos h1]
    rw [hstep]
    refine ih inv1 inv2a inv2b inv2c
      (fun p hp => inv3 p (List.mem_cons_of_mem _ hp)) inv4 ?_ ?_
    · intro p q hpV hc hadj hq
      rcases inv5 p q hpV hc hadj hq with hv | hs
      · exact Or.inl hv
      · rcases List.mem_cons.mp hs with rfl | hm
        · exact absurd hq h1
        · exact Or.inr hm
    · intro hins
      rcases inv6 hins with hv | hs
      · exact Or.inl hv
      · rcases List.mem_cons.mp hs with heq | hm
        · rw [heq] at hins
          exact absurd hins h1
        · exact Or.inr hm
  | case3 x y rest visited pix h1 h2 ih =>
    intro inv1 inv2a inv2b inv2c inv3 inv4 inv5 inv6
    have hstep : ffLoop w h c₀ fillAt ((x, y) :: rest) visited pix
        = ffLoop w h c₀ fillAt rest visited pix := by
      rw [ffLoop]
      rw [dif_neg h1, dif_pos h2]
    rw [hstep]
    refine ih inv1 inv2a inv2b inv2c
      (fun p hp => inv3 p (List.mem_cons_of_mem _ hp)) inv4 ?_ ?_
    · intro p q hpV hc hadj hq
      rcases inv5 p q hpV hc hadj hq with hv | hs
      · exact Or.inl hv
      · rcases List.mem_cons.mp hs with rfl | hm
        · exact Or.inl h2
        · exact Or.inr hm
    · intro hins
      rcases inv6 hins with hv | hs
      · exact Or.inl hv
      · rcases List.mem_cons.mp hs with heq | hm
        · exact Or.inl (heq ▸ h2)
        · exact Or.inr hm
  | case4 x y rest visited pix h1 h2 h3 ih =>
    intro inv1 inv2a inv2b inv2c inv3 inv4 inv5 inv6
    have hin : inB w h x y := not_not.mp h1
    have hC0 : C0 x y = c₀ := ((inv1 (x, y) h2).symm).trans h3
    have hreach : Reach w h C0 c₀ s (x, y) := inv3 (x, y) (List.mem_cons_self _ _)
    have hstep : ffLoop w h c₀ fillAt ((x, y) :: rest) visited pix
        = ffLoop w h c₀ fillAt
            ((x, y - 1) :: (x, y + 1) :: (x - 1, y) :: (x + 1, y) :: rest)
            (insert (x, y) visited) (updPix pix x y (fillAt x y)) := by
      rw [ffLoop]
      rw [dif_neg h1, dif_neg h2, if_pos h3]
    rw [hstep]
    have m1 : ((x, y - 1) : ℤ × ℤ)
        ∈ (x, y - 1) :: (x, y + 1) :: (x - 1, y) :: (x + 1, y) :: rest :=
      List.mem_cons_self _ _
    have m2 : ((x, y + 1) : ℤ × ℤ)
        ∈ (x, y - 1) :: (x, y + 1) :: (x - 1, y) :: (x + 1, y) :: rest :=
      List.mem_cons_of_mem _ (List.mem_cons_self _ _)
    have m3 : ((x - 1, y) : ℤ × ℤ)
        ∈ (x, y - 1) :: (x, y + 1) :: (x - 1, y) :: (x + 1, y) :: rest :=
      List.mem_cons_of_mem _ (List.mem_cons_of_mem _ (List.mem_cons_self _ _))
    have m4 : ((x + 1, y) : ℤ × ℤ)
        ∈ (x, y - 1) :: (x, y + 1) :: (x - 1, y) :: (x + 1, y) :: rest :=
      List.mem_cons_of_mem _
        (List.mem_cons_of_mem _ (List.mem_cons_of_mem _ (List.mem_cons_self _ _)))
    have mrest : ∀ p ∈ rest,
        p ∈ (x, y - 1) :: (x, y + 1) :: (x - 1, y) :: (x + 1, y) :: rest :=
      fun p hp => List.mem_cons_of_mem _ (List.mem_cons_of_mem _
        (List.mem_cons_of_mem _ (List.mem_cons_of_mem _ hp)))
    refine ih ?_ ?_ ?_ ?_ ?_ ?_ ?_ ?_
    · intro p hp
      have hne : ¬ (p.1 = x ∧ p.2 = y) := by
        intro hpe
        exact hp (by
          have hpxy : p = (x, y) := Prod.ext hpe.1 hpe.2
          rw [hpxy]
          exact Finset.mem_insert_self _ _)
      have hnv : p ∉ visited := fun hv => hp (Finset.mem_insert_of_mem hv)
      simp only [updPix, if_neg hne]
      exact inv1 p hnv
    · intro p hp
      rcases Finset.mem_insert.mp hp with rfl | hv
      · exact hin
      · exact inv2a p hv
    · intro p hp hc
      rcases Finset.mem_insert.mp hp with rfl | hv
      · simp [updPix]
      · have hne : ¬ (p.1 = x ∧ p.2 = y) := by
          intro hpe
          have hpxy : p = (x, y) := Prod.ext hpe.1 hpe.2
          exact h2 (hpxy ▸ hv)
        simp only [updPix, if_neg hne]
        exact inv2b p hv hc
    · intro p hp hcne
      rcases Finset.mem_insert.mp hp with rfl | hv
      · exact absurd hC0 hcne
      · have hne : ¬ (p.1 = x ∧ p.2 = y) := by
          intro hpe
          have hpxy : p = (x, y) := Prod.ext hpe.1 hpe.2
          exact h2 (hpxy ▸ hv)
        simp only [updPix, if_neg hne]
        exact inv2c p hv hcne
    · intro p hp
      rcases List.mem_cons.mp hp with rfl | hp
      · exact Reach.step hreach hin hC0 (Or.inr (Or.inr (Or.inr rfl)))
      rcases List.mem_cons.mp hp with rfl | hp
      · exact Reach.step hreach hin hC0 (Or.inr (Or.inr (Or.inl rfl)))
      rcases List.mem_cons.mp hp with rfl | hp
      · exact Reach.step hreach hin hC0 (Or.inr (Or.inl rfl))
      rcases List.mem_cons.mp hp with rfl | hp
      · exact Reach.step hreach hin hC0 (Or.inl rfl)
      · exact inv3 p (List.mem_cons_of_mem _ hp)
    · intro p hp
      rcases Finset.mem_insert.mp hp with rfl | hv
      · exact hreach
      · exact inv4 p hv
    · intro p q hpV hc hadj hq
      rcases Finset.mem_insert.mp hpV with rfl | hv
      · rcases hadj with rfl | rfl | rfl | rfl
        · exact Or.inr m4
        · exact Or.inr m3
        · exact Or.inr m2
        · exact Or.inr m1
      · rcases inv5 p q hv hc hadj hq with hqv | hqs
        · exact Or.inl (Finset.mem_insert_of_mem hqv)
        · rcases List.mem_cons.mp hqs with heq | hm
          · exact Or.inl (heq ▸ Finset.mem_insert_self _ _)
          · exact Or.inr (mrest q hm)
    · intro hins
      rcases inv6 hins with hv | hs
      · exact Or.inl (Finset.mem_insert_of_mem hv)
      · rcases List.mem_cons.mp hs with heq | hm
        · exact Or.inl (heq ▸ Finset.mem_insert_self _ _)
        · exact Or.inr (mrest s hm)
  | case5 x y rest visited pix h1 h2 h3 ih =>
    intro inv1 inv2a inv2b inv2c inv3 inv4 inv5 inv6
    have hin : inB w h x y := not_not.mp h1
    have hC0ne : C0 x y ≠ c₀ := fun hc => h3 ((inv1 (x, y) h2).trans hc)
    have hreach : Reach w h C0 c₀ s (x, y) := inv3 (x, y) (List.mem_cons_self _ _)
    have hstep : ffLoop w h c₀ fillAt ((x, y) :: rest) visited pix
        = ffLoop w h c₀ fillAt rest (insert (x, y) visited) pix := by
      rw [ffLoop]
      rw [dif_neg h1, dif_neg h2, if_neg h3]
    rw [hstep]
    refine ih ?_ ?_ ?_ ?_
      (fun p hp => inv3 p (List.mem_cons_of_mem _ hp)) ?_ ?_ ?_
    · intro p hp
      exact inv1 p (fun hv => hp (Finset.mem_insert_of_mem hv))
    · intro p hp
      rcases Finset.mem_insert.mp hp with rfl | hv
      · exact hin
      · exact inv2a p hv
    · intro p hp hc
      rcases Finset.mem_insert.mp hp with rfl | hv
      · exact absurd hc hC0ne
      · exact inv2b p hv hc
    · intro p hp hcne
      rcases Finset.mem_insert.mp hp with rfl | hv
      · exact inv1 (x, y) h2
      · exact inv2c p hv hcne
    · intro p hp
      rcases Finset.mem_insert.mp hp with rfl | hv
      · exact hreach
      · exact inv4 p hv
    · intro p q hpV hc hadj hq
      rcases Finset.mem_insert.mp hpV with rfl | hv
      · exact absurd hc hC0ne
      · rcases inv5 p q hv hc hadj hq with hqv | hqs
        · exact Or.inl (Finset.mem_insert_of_mem hqv)
        · rcases List.mem_cons.mp hqs with heq | hm
          · exact Or.inl (heq ▸ Finset.mem_insert_self _ _)
          · exact Or.inr hm
    · intro hins
      rcases inv6 hins with hv | hs
      · exact Or.inl (Finset.mem_insert_of_mem hv)
      · rcases List.mem_cons.mp hs with heq | hm
        · exact Or.inl (heq ▸ Finset.mem_insert_self _ _)
        · exact Or.inr hm

/-- C1: for every canvas and every in-bounds seed point, a solid flood fill
writes the fill colour+alpha on exactly the maximal 4-connected region of
pixels whose RGBA quadruple exactly equals the seed pixel's original value
(`Region`), leaves every pixel outside that region unchanged, and — whenever
the fill value differs from the seed colour (otherwise the guard makes the
whole fill a no-op on identical pixels) — the set of pixels that actually
change is exactly that region. -/
theorem floodFill_exact_region (w h : ℤ) (C : CanvasFn) (startX startY : ℚ)
    (fillColor : RGB) (opacity : ℚ) (patternCanvas : ℤ → ℤ → RGBA)
    (_hseed : inB w h ⌊startX⌋ ⌊startY⌋) :
    (∀ a b : ℤ, Region w h C (⌊startX⌋, ⌊startY⌋) (a, b) →
      floodFill w h C startX startY fillColor opacity .solid patternCanvas a b
        = solidFillRGBA fillColor opacity) ∧
    (∀ a b : ℤ, ¬ Region w h C (⌊startX⌋, ⌊startY⌋) (a, b) →
      floodFill w h C startX startY fillColor opacity .solid patternCanvas a b
        = C a b) ∧
    (solidFillRGBA fillColor opacity ≠ C ⌊startX⌋ ⌊startY⌋ →
      ∀ a b : ℤ,
        (floodFill w h C startX startY fillColor opacity .solid patternCanvas a b
            ≠ C a b
          ↔ Region w h C (⌊startX⌋, ⌊startY⌋) (a, b))) := by
  by_cases hg : C ⌊startX⌋ ⌊startY⌋ = solidFillRGBA fillColor opacity
  · have hff : floodFill w h C startX startY fillColor opacity .solid
        patternCanvas = C := by
      simp [floodFill, hg]
    refine ⟨?_, ?_, ?_⟩
    · intro a b hreg
      rw [hff, hreg.2.2, hg]
    · intro a b _
      rw [hff]
    · intro hne
      exact absurd hg.symm hne
  · have hff : floodFill w h C startX startY fillColor opacity .solid
        patternCanvas
        = ffLoop w h (C ⌊startX⌋ ⌊startY⌋)
            (fun _ _ => solidFillRGBA fillColor opacity)
            [(⌊startX⌋, ⌊startY⌋)] ∅ C := by
      simp [floodFill, hg]
    obtain ⟨hfill, hkeep⟩ := ffLoop_spec w h (C ⌊startX⌋ ⌊startY⌋)
      (fun _ _ => solidFillRGBA fillColor opacity) C (⌊startX⌋, ⌊startY⌋)
      [(⌊startX⌋, ⌊startY⌋)] ∅ C
      (fun _ _ => rfl)
      (fun p hp => absurd hp (Finset.not_mem_empty p))
      (fun p hp => absurd hp (Finset.not_mem_empty p))
      (fun p hp => absurd hp (Finset.not_mem_empty p))
      (by
        intro p hp
        rcases List.mem_singleton.mp hp with rfl
        exact Reach.seed)
      (fun p hp => absurd hp (Finset.not_mem_empty p))
      (fun p q hp => absurd hp (Finset.not_mem_empty p))
      (fun _ => Or.inr (List.mem_singleton.mpr rfl))
    refine ⟨?_, ?_, ?_⟩
    · intro a b hreg
      rw [hff]
      exact hfill a b hreg.1 hreg.2.1 hreg.2.2
    · intro a b hnr
      rw [hff]
      exact hkeep a b hnr
    · intro hne a b
      constructor
      · intro hch
        by_contra hnr
        rw [hff] at hch
        exact hch (hkeep a b hnr)
      · intro hreg
        rw [hff, hfill a b hreg.1 hreg.2.1 hreg.2.2, hreg.2.2]
        exact hne

/-- The seed point of the C1 witness is inside the 2x2 canvas. -/
theorem c1_seed_fact : inB 2 2 ⌊(0 : ℚ)⌋ ⌊(0 : ℚ)⌋ := by
  norm_num [inB]

/-- Witness for C1 on a concrete 2x2 canvas whose pixel (0,0) differs from
the rest, seeded at (0,0) with a solid fill. -/
theorem floodFill_exact_region_witness :
    inB 2 2 ⌊(0 : ℚ)⌋ ⌊(0 : ℚ)⌋ ∧
    ((∀ a b : ℤ, Region 2 2
        (fun a b => if a = 0 ∧ b = 0 then ⟨1, 1, 1, 255⟩ else ⟨2, 2, 2, 255⟩)
        (⌊(0 : ℚ)⌋, ⌊(0 : ℚ)⌋) (a, b) →
      floodFill 2 2
          (fun a b => if a = 0 ∧ b = 0 then ⟨1, 1, 1, 255⟩ else ⟨2, 2, 2, 255⟩)
          0 0 ⟨5, 5, 5⟩ 1 .solid (fun _ _ => ⟨0, 0, 0, 0⟩) a b
        = solidFillRGBA ⟨5, 5, 5⟩ 1) ∧
    (∀ a b : ℤ, ¬ Region 2 2
        (fun a b => if a = 0 ∧ b = 0 then ⟨1, 1, 1, 255⟩ else ⟨2, 2, 2, 255⟩)
        (⌊(0 : ℚ)⌋, ⌊(0 : ℚ)⌋) (a, b) →
      floodFill 2 2
          (fun a b => if a = 0 ∧ b = 0 then ⟨1, 1, 1, 255⟩ else ⟨2, 2, 2, 255⟩)
          0 0 ⟨5, 5, 5⟩ 1 .solid (fun _ _ => ⟨0, 0, 0, 0⟩) a b
        = (fun a b : ℤ =>
            if a = 0 ∧ b = 0 then (⟨1, 1, 1, 255⟩ : RGBA) else ⟨2, 2, 2, 255⟩) a b) ∧
    (solidFillRGBA ⟨5, 5, 5⟩ 1
        ≠ (fun a b : ℤ =>
            if a = 0 ∧ b = 0 then (⟨1, 1, 1, 255⟩ : RGBA) else ⟨2, 2, 2, 255⟩)
          ⌊(0 : ℚ)⌋ ⌊(0 : ℚ)⌋ →
      ∀ a b : ℤ,
        (floodFill 2 2
            (fun a b => if a = 0 ∧ b = 0 then ⟨1, 1, 1, 255⟩ else ⟨2, 2, 2, 255⟩)
            0 0 ⟨5, 5, 5⟩ 1 .solid (fun _ _ => ⟨0, 0, 0, 0⟩) a b
            ≠ (fun a b : ℤ =>
                if a = 0 ∧ b = 0 then (⟨1, 1, 1, 255⟩ : RGBA) else ⟨2, 2, 2, 255⟩)
              a b
          ↔ Region 2 2
              (fun a b => if a = 0 ∧ b = 0 then ⟨1, 1, 1, 255⟩ else ⟨2, 2, 2, 255⟩)
              (⌊(0 : ℚ)⌋, ⌊(0 : ℚ)⌋) (a, b)))) :=
  ⟨c1_seed_fact,
    floodFill_exact_region 2 2
      (fun a b => if a = 0 ∧ b = 0 then ⟨1, 1, 1, 255⟩ else ⟨2, 2, 2, 255⟩)
      0 0 ⟨5, 5, 5⟩ 1 (fun _ _ => ⟨0, 0, 0, 0⟩) c1_seed_fact⟩

end GeometricPainter
